import Mathlib

/-!
# Verification of the résumé / job-description matching pipeline

Shallow embedding of `jobmatching.py`: the text normalizer (`clean_text`),
the document extraction chain (`extract_text_from_pdf`), the skill taxonomy
matcher (`extract_canonical_skills`) and the scoring functions
(`semantic_match_score`, `keyword_match_score`, the final combined score and
the empty-job-description substitution performed by the top-level handler).

Modelling conventions:
* Python strings are `String` / `List Char`; Python's `str.lower` is modelled
  by `Char.toLower` (ASCII case folding — all taxonomy triggers and all
  concrete inputs used below are ASCII).
* Python's regex class `\s` and `str.strip` are modelled over the six ASCII
  whitespace characters, which is what they mean on ASCII text.
* Python `set` is `Finset String`.
* Python floats are modelled by `ℚ`; `round(x, 2)` is modelled by `round2`
  below (round to an integer number of hundredths).  Python rounds ties to
  even; no value appearing in the theorems below sits on a tie, so the two
  conventions agree everywhere they are compared.
* The external capabilities (pypdf, pdfplumber, OCR, the embedding model)
  are oracles: a `PdfDoc` records what each strategy would yield (with
  `Option`/flags recording a raised exception), and the cosine similarity
  returned by the embedding backend is an explicit parameter in `[-1, 1]`.
-/

set_option autoImplicit false

namespace JobMatching

/-! ## Whitespace and text normalisation (`clean_text`, `str.strip`) -/

/-- The six ASCII whitespace characters recognised by Python's `\s` and
`str.strip` on ASCII text. -/
def isSpacePy (c : Char) : Bool :=
  c = ' ' || c = '\t' || c = '\n' || c = '\r' || c = '\x0b' || c = '\x0c'

/-- `re.sub(r"\s+", " ", text)`: collapse every maximal whitespace run to a
single space.  The boolean flag records whether the previous character was
part of a whitespace run. -/
def collapseGo : List Char → Bool → List Char
  | [], _ => []
  | c :: cs, inRun =>
    if isSpacePy c then
      if inRun then collapseGo cs true else ' ' :: collapseGo cs true
    else c :: collapseGo cs false

/-- `str.strip()` on a list of characters. -/
def stripL (l : List Char) : List Char :=
  ((l.dropWhile isSpacePy).reverse.dropWhile isSpacePy).reverse

/-- `clean_text(text) = re.sub(r"\s+", " ", text).strip()` on characters. -/
def cleanTextL (l : List Char) : List Char :=
  stripL (collapseGo l false)

/-- `clean_text` on strings (jobmatching.py line 161-162). -/
def clean_text (s : String) : String :=
  ⟨cleanTextL s.toList⟩

/-- `str.strip()` on strings. -/
def stripS (s : String) : String :=
  ⟨stripL s.toList⟩

/-! ## Substring containment (Python's `k in text`) -/

/-- `startsWithL n h`: `n` is a prefix of `h`. -/
def startsWithL : List Char → List Char → Bool
  | [], _ => true
  | _ :: _, [] => false
  | a :: as, b :: bs => a == b && startsWithL as bs

/-- `listIn n h`: Python's substring test `n in h`. -/
def listIn (n : List Char) : List Char → Bool
  | [] => n.isEmpty
  | c :: cs => startsWithL n (c :: cs) || listIn n cs

/-- Python's `k in text` on strings. -/
def strIn (n h : String) : Bool :=
  listIn n.toList h.toList

/-! ## Skill taxonomy matcher (`extract_canonical_skills`) -/

/-- One `if any(k in text for k in [...]): skills.add(tag)` block. -/
def addIf (cond : Bool) (tag : String) (s : Finset String) : Finset String :=
  if cond then insert tag s else s

/-- The thirteen trigger-list / canonical-tag blocks of
`extract_canonical_skills` (jobmatching.py lines 23-115), in source order. -/
def taxonomy : List (List String × String) :=
  [(["seo", "sem", "digital marketing", "content marketing",
     "google ads", "facebook ads", "social media marketing"],
    "digital marketing"),
   (["software", "developer", "engineering",
     "java", "python", "c++", "javascript",
     "html", "css", "sql", "spring", "django", "flask"],
    "software development"),
   (["web developer", "frontend", "backend", "full stack",
     "react", "angular", "vue", "node", "express"],
    "web development"),
   (["ui", "ux", "user interface", "user experience",
     "figma", "adobe xd", "wireframe", "prototype"],
    "ui ux design"),
   (["ai", "ml", "machine learning", "deep learning",
     "cnn", "rnn", "nlp", "computer vision"],
    "machine learning"),
   (["data scientist", "data science", "data analyst",
     "pandas", "numpy", "matplotlib", "statistics",
     "power bi", "tableau", "excel"],
    "data science"),
   (["aws", "azure", "gcp", "cloud computing",
     "devops", "docker", "kubernetes", "ci/cd"],
    "cloud devops"),
   (["cyber security", "cybersecurity", "ethical hacking",
     "penetration testing", "network security", "soc"],
    "cybersecurity"),
   (["android", "ios", "mobile app", "flutter",
     "react native", "kotlin", "swift"],
    "mobile app development"),
   (["software testing", "qa", "quality assurance",
     "manual testing", "automation testing",
     "selenium", "junit"],
    "software testing"),
   (["business analyst", "project manager",
     "product manager", "agile", "scrum"],
    "business management"),
   (["finance", "accounting", "tally", "gst",
     "auditing", "financial analysis"],
    "finance accounting"),
   (["human resources", "hr", "recruitment",
     "talent acquisition", "payroll"],
    "human resources")]

/-- `extract_canonical_skills` (jobmatching.py lines 19-117): lowercase the
text, start from the empty set, and run the thirteen keyword-trigger blocks
in source order, each adding its canonical tag when any of its triggers
occurs as a substring of the lowercased text. -/
def extract_canonical_skills (text : String) : Finset String :=
  let t : List Char := text.toList.map Char.toLower
  taxonomy.foldl (fun s kt => addIf (kt.1.any fun k => listIn k.toList t) kt.2 s) ∅

/-- The thirteen canonical tags, in source order. -/
def canonicalTags : Finset String :=
  {"digital marketing", "software development", "web development",
   "ui ux design", "machine learning", "data science", "cloud devops",
   "cybersecurity", "mobile app development", "software testing",
   "business management", "finance accounting", "human resources"}

/-! ## Document extraction chain (`extract_text_from_pdf`) -/

/-- Oracle for what the three extraction capabilities yield on one document.
For pypdf and pdfplumber, the page-text list holds the per-page
`page.extract_text()` results produced before any exception; an exception is
recorded by the flag (the `except: pass` keeps whatever was accumulated, so a
strategy that raises immediately is the empty page list with the flag set).
For OCR (`extract_text_with_ocr`), a raised exception anywhere discards the
partial local result, so the oracle is `some` of the per-image
`image_to_string` results on full success and `none` on a raise. -/
structure PdfDoc where
  pypdfPages : List String
  pypdfRaised : Bool
  plumberPages : List String
  plumberRaised : Bool
  ocrImages : Option (List String)

/-- The per-page accumulation `if page.extract_text(): text += page.extract_text() + " "`
(a page whose text is falsy, i.e. empty, is skipped). -/
def accumPages (init : String) (pages : List String) : String :=
  pages.foldl (fun acc p => if p ≠ "" then acc ++ p ++ " " else acc) init

/-- `extract_text_with_ocr` (lines 120-125): concatenate `image_to_string`
of every page image, each followed by a space, then `clean_text`. -/
def extract_text_with_ocr (images : List String) : String :=
  clean_text (images.foldl (fun acc t => acc ++ t ++ " ") "")

/-- `extract_text_from_pdf` (lines 128-159).  Returns the extracted text
together with two flags: whether the pdfplumber fallback block was entered
(line 141: `if not text.strip()`), and whether the OCR fallback block was
entered (line 152: `if len(text.strip()) < 100`).  A raised exception in a
strategy is caught by its `except: pass` and leaves `text` unchanged. -/
def extract_text_from_pdf (d : PdfDoc) : String × Bool × Bool :=
  let text := accumPages "" d.pypdfPages
  let invoked2 := stripS text == ""
  let text := if invoked2 then accumPages text d.plumberPages else text
  let invoked3 := decide ((stripS text).length < 100)
  let text :=
    if invoked3 then
      match d.ocrImages with
      | some images => extract_text_with_ocr images
      | none => text
    else text
  (clean_text text, invoked2, invoked3)

/-- The résumé-text selection in the Analyze Resume handler (lines 224-228):
manually pasted text, when non-blank, is used as-is; otherwise the PDF
extraction chain runs. -/
def chooseResumeText (manual : String) (d : PdfDoc) : String :=
  if stripS manual ≠ "" then manual else (extract_text_from_pdf d).1

/-! ## Scoring -/

/-- Python's `round(x, 2)` over our rational model of floats: round `q` to a
whole number of hundredths, halves up.  (Python rounds ties to even; no value
compared in the theorems below is a tie, so the conventions agree there.) -/
def round2 (q : ℚ) : ℚ :=
  ((q * 100 + 1 / 2).floor : ℚ) / 100

/-- `semantic_match_score` (lines 165-171): the embedding backend returns a
cosine similarity `cos` for the two space-joined skill strings; the function
returns `round(cos * 100, 2)`.  The cosine value is the explicit oracle
parameter. -/
def semantic_match_score (cos : ℚ) : ℚ :=
  round2 (cos * 100)

/-- `keyword_match_score` (lines 173-177). -/
def keyword_match_score (resume_skills jd_skills : Finset String) : ℚ :=
  if jd_skills = ∅ then 0
  else round2 (((resume_skills ∩ jd_skills).card : ℚ) / (jd_skills.card : ℚ) * 100)

/-- The handler's substitution (lines 255-256):
`if not jd_skills: jd_skills = resume_skills.copy()`. -/
def substituted_jd (resume_skills jd_skills : Finset String) : Finset String :=
  if jd_skills = ∅ then resume_skills else jd_skills

/-- The handler's combined score (lines 261-263):
`round(semantic_score * 0.7 + keyword_score * 0.3, 2)`. -/
def final_score (semantic_score keyword_score : ℚ) : ℚ :=
  round2 (semantic_score * (7 / 10) + keyword_score * (3 / 10))

/-! ## Normal-form predicates for `clean_text` -/

/-- No two adjacent characters are both whitespace. -/
def notBothWS (a b : Char) : Prop :=
  ¬(isSpacePy a = true ∧ isSpacePy b = true)

/-- The list contains no two consecutive whitespace characters. -/
def WSfree (l : List Char) : Prop :=
  List.Chain' notBothWS l

/-- The list does not start with a whitespace character. -/
def headNotWS : List Char → Prop
  | [] => True
  | c :: _ => isSpacePy c = false

theorem collapseGo_mem_space :
    ∀ (l : List Char) (b : Bool) (c : Char), c ∈ collapseGo l b → isSpacePy c = true → c = ' '
  | [], _, _, h, _ => by simp [collapseGo] at h
  | a :: as, b, c, h, hc => by
    cases ha : isSpacePy a with
    | true =>
      cases b with
      | true =>
        simp [collapseGo, ha] at h
        exact collapseGo_mem_space as true c h hc
      | false =>
        simp [collapseGo, ha] at h
        rcases h with h1 | h1
        · exact h1
        · exact collapseGo_mem_space as true c h1 hc
    | false =>
      simp [collapseGo, ha] at h
      rcases h with h1 | h1
      · rw [h1] at hc; rw [hc] at ha; cases ha
      · exact collapseGo_mem_space as false c h1 hc

theorem collapseGo_true_headNot : ∀ l : List Char, headNotWS (collapseGo l true)
  | [] => trivial
  | a :: as => by
    cases ha : isSpacePy a with
    | true =>
      simp only [collapseGo, ha, if_true]
      exact collapseGo_true_headNot as
    | false =>
      simp only [collapseGo, ha]
      simp only [Bool.false_eq_true, if_false]
      exact ha

theorem notBothWS_of_headNot {a : Char} {l : List Char} (h : headNotWS l) :
    ∀ y ∈ l.head?, notBothWS a y := by
  cases l with
  | nil => intro y hy; cases hy
  | cons b bs =>
    intro y hy
    rw [List.head?_cons, Option.mem_some_iff] at hy
    rw [← hy]
    exact fun hb => by rw [h] at hb; cases hb.2

theorem collapseGo_wsfree : ∀ (l : List Char) (b : Bool), WSfree (collapseGo l b)
  | [], _ => List.chain'_nil
  | a :: as, b => by
    cases ha : isSpacePy a with
    | true =>
      cases b with
      | true =>
        simp only [collapseGo, ha, if_true]
        exact collapseGo_wsfree as true
      | false =>
        simp only [collapseGo, ha, if_true, if_false]
        exact List.chain'_cons'.2
          ⟨notBothWS_of_headNot (collapseGo_true_headNot as), collapseGo_wsfree as true⟩
    | false =>
      simp only [collapseGo, ha, Bool.false_eq_true, if_false]
      refine List.chain'_cons'.2 ⟨?_, collapseGo_wsfree as false⟩
      intro y _
      exact fun hb => by rw [ha] at hb; cases hb.1

theorem wsfree_reverse {l : List Char} (h : WSfree l) : WSfree l.reverse := by
  rw [WSfree, List.chain'_reverse]
  exact h.imp fun a b hab => fun hc => hab ⟨hc.2, hc.1⟩

theorem wsfree_dropWhile {l : List Char} (h : WSfree l) :
    WSfree (l.dropWhile isSpacePy) :=
  h.suffix (List.dropWhile_suffix _)

theorem wsfree_stripL {l : List Char} (h : WSfree l) : WSfree (stripL l) :=
  wsfree_reverse (wsfree_dropWhile (wsfree_reverse (wsfree_dropWhile h)))

theorem mem_dropWhile_space {c : Char} {l : List Char}
    (h : c ∈ l.dropWhile isSpacePy) : c ∈ l :=
  (List.dropWhile_suffix _).sublist.mem h

theorem mem_stripL {c : Char} {l : List Char} (h : c ∈ stripL l) : c ∈ l := by
  rw [stripL, List.mem_reverse] at h
  have h2 := mem_dropWhile_space h
  rw [List.mem_reverse] at h2
  exact mem_dropWhile_space h2

theorem dropWhile_space_headNot : ∀ l : List Char, headNotWS (l.dropWhile isSpacePy)
  | [] => trivial
  | a :: as => by
    cases ha : isSpacePy a with
    | true =>
      rw [List.dropWhile_cons_of_pos ha]
      exact dropWhile_space_headNot as
    | false =>
      rw [List.dropWhile_cons_of_neg (by simp [ha])]
      exact ha

theorem headNot_of_pre {l m : List Char} (hm : headNotWS m) (h : l <+: m) :
    headNotWS l := by
  cases l with
  | nil => trivial
  | cons c t =>
    obtain ⟨u, hu⟩ := h
    rw [← hu] at hm
    exact hm

theorem reverse_suffix_to_pre {l m : List Char} (h : l <:+ m) :
    l.reverse <+: m.reverse := by
  obtain ⟨t, rfl⟩ := h
  exact ⟨t.reverse, by simp⟩

theorem stripL_headNot (l : List Char) : headNotWS (stripL l) := by
  have h1 : headNotWS (l.dropWhile isSpacePy) := dropWhile_space_headNot l
  have h2 : ((l.dropWhile isSpacePy).reverse.dropWhile isSpacePy).reverse
      <+: (l.dropWhile isSpacePy).reverse.reverse :=
    reverse_suffix_to_pre (List.dropWhile_suffix _)
  rw [List.reverse_reverse] at h2
  exact headNot_of_pre h1 h2

theorem stripL_reverse_headNot (l : List Char) : headNotWS (stripL l).reverse := by
  rw [stripL, List.reverse_reverse]
  exact dropWhile_space_headNot _

theorem dropWhile_space_eq_self {l : List Char} (h : headNotWS l) :
    l.dropWhile isSpacePy = l := by
  cases l with
  | nil => rfl
  | cons c t => exact List.dropWhile_cons_of_neg (by simp [headNotWS] at h; simp [h])

theorem stripL_eq_self {l : List Char} (h1 : headNotWS l) (h2 : headNotWS l.reverse) :
    stripL l = l := by
  rw [stripL, dropWhile_space_eq_self h1, dropWhile_space_eq_self h2,
    List.reverse_reverse]

theorem collapseGo_true_eq_false {l : List Char} (h : headNotWS l) :
    collapseGo l true = collapseGo l false := by
  cases l with
  | nil => rfl
  | cons c t =>
    simp only [headNotWS] at h
    simp only [collapseGo, h, Bool.false_eq_true, if_false]

theorem headNot_of_wsfree_cons {a : Char} {as : List Char}
    (ha : isSpacePy a = true) (h : WSfree (a :: as)) : headNotWS as := by
  cases as with
  | nil => trivial
  | cons b bs =>
    have hb := (List.chain'_cons'.1 h).1 b (by rw [List.head?_cons]; rfl)
    cases hb2 : isSpacePy b with
    | true => exact absurd ⟨ha, hb2⟩ hb
    | false => exact hb2

theorem collapseGo_eq_self :
    ∀ l : List Char, (∀ c ∈ l, isSpacePy c = true → c = ' ') → WSfree l →
      collapseGo l false = l
  | [], _, _ => rfl
  | a :: as, hall, hfree => by
    have ihall : ∀ c ∈ as, isSpacePy c = true → c = ' ' :=
      fun c hc => hall c (List.mem_cons_of_mem a hc)
    have ihfree : WSfree as := (List.chain'_cons'.1 hfree).2
    cases ha : isSpacePy a with
    | true =>
      have haeq : a = ' ' := hall a (List.mem_cons_self a as) ha
      simp only [collapseGo, ha, if_true, Bool.false_eq_true, if_false]
      rw [collapseGo_true_eq_false (headNot_of_wsfree_cons ha hfree),
        collapseGo_eq_self as ihall ihfree, haeq]
    | false =>
      simp only [collapseGo, ha, Bool.false_eq_true, if_false]
      rw [collapseGo_eq_self as ihall ihfree]

theorem cleanTextL_wsfree (l : List Char) : WSfree (cleanTextL l) :=
  wsfree_stripL (collapseGo_wsfree l false)

theorem cleanTextL_headNot (l : List Char) : headNotWS (cleanTextL l) :=
  stripL_headNot _

theorem cleanTextL_reverse_headNot (l : List Char) :
    headNotWS (cleanTextL l).reverse :=
  stripL_reverse_headNot _

theorem cleanTextL_all_space (l : List Char) :
    ∀ c ∈ cleanTextL l, isSpacePy c = true → c = ' ' :=
  fun c hc => collapseGo_mem_space l false c (mem_stripL hc)

theorem cleanTextL_idem (l : List Char) : cleanTextL (cleanTextL l) = cleanTextL l := by
  have h1 : collapseGo (cleanTextL l) false = cleanTextL l :=
    collapseGo_eq_self _ (cleanTextL_all_space l) (cleanTextL_wsfree l)
  rw [cleanTextL, h1,
    stripL_eq_self (cleanTextL_headNot l) (cleanTextL_reverse_headNot l)]

/-! ## Substring containment: characterisation and transitivity -/

theorem startsWithL_iff :
    ∀ (a b : List Char), startsWithL a b = true ↔ ∃ t, b = a ++ t
  | [], b => by simp [startsWithL]
  | x :: xs, [] => by simp [startsWithL]
  | x :: xs, y :: ys => by
    simp only [startsWithL, Bool.and_eq_true, beq_iff_eq]
    rw [startsWithL_iff xs ys]
    constructor
    · rintro ⟨rfl, t, rfl⟩; exact ⟨t, rfl⟩
    · rintro ⟨t, ht⟩
      rw [List.cons_append] at ht
      injection ht with h1 h2
      exact ⟨h1.symm, t, h2⟩

theorem listIn_iff :
    ∀ (a b : List Char), listIn a b = true ↔ ∃ p s, b = p ++ a ++ s
  | a, [] => by
    simp only [listIn, List.isEmpty_iff]
    constructor
    · rintro rfl; exact ⟨[], [], rfl⟩
    · rintro ⟨p, s, h⟩
      obtain ⟨hp, has⟩ := List.append_eq_nil.1 h.symm
      exact (List.append_eq_nil.1 hp).2
  | a, c :: cs => by
    simp only [listIn, Bool.or_eq_true]
    rw [startsWithL_iff, listIn_iff a cs]
    constructor
    · rintro (⟨t, ht⟩ | ⟨p, s, hp⟩)
      · exact ⟨[], t, by simp [ht]⟩
      · exact ⟨c :: p, s, by simp [hp]⟩
    · rintro ⟨p, s, hp⟩
      cases p with
      | nil => exact Or.inl ⟨s, by simpa using hp⟩
      | cons c' p' =>
        rw [List.cons_append] at hp
        injection hp with h1 h2
        exact Or.inr ⟨p', s, h2⟩

theorem listIn_trans {a b c : List Char}
    (h1 : listIn a b = true) (h2 : listIn b c = true) : listIn a c = true := by
  obtain ⟨p, s, rfl⟩ := (listIn_iff a b).1 h1
  obtain ⟨p', s', rfl⟩ := (listIn_iff _ c).1 h2
  exact (listIn_iff a _).2 ⟨p' ++ p, s ++ s', by simp⟩

theorem listIn_map {a b : List Char} (f : Char → Char)
    (h : listIn a b = true) : listIn (a.map f) (b.map f) = true := by
  obtain ⟨p, s, rfl⟩ := (listIn_iff a b).1 h
  exact (listIn_iff _ _).2 ⟨p.map f, s.map f, by simp⟩

/-! ## Membership lemmas for the taxonomy fold -/

theorem mem_addIf_of_mem {a tag : String} {c : Bool} {s : Finset String}
    (h : a ∈ s) : a ∈ addIf c tag s := by
  rw [addIf]
  cases c with
  | true => exact Finset.mem_insert_of_mem h
  | false => exact h

theorem mem_taxFoldl_of_mem {a : String} (step : Finset String →
      List String × String → Finset String)
    (hstep : ∀ s kt, a ∈ s → a ∈ step s kt) :
    ∀ (L : List (List String × String)) (s : Finset String), a ∈ s → a ∈ L.foldl step s
  | [], _, h => h
  | kt :: L, s, h => mem_taxFoldl_of_mem step hstep L (step s kt) (hstep s kt h)

theorem addIf_subset {tag : String} {c : Bool} {s S : Finset String}
    (htag : tag ∈ S) (h : s ⊆ S) : addIf c tag s ⊆ S := by
  rw [addIf]
  cases c with
  | true => exact Finset.insert_subset htag h
  | false => exact h

theorem tag_mem_taxFoldl {t : List Char} {trigs : List String} {tag k : String}
    (hk : k ∈ trigs) (hocc : listIn k.toList t = true) :
    ∀ (L : List (List String × String)) (s : Finset String), (trigs, tag) ∈ L →
      tag ∈ L.foldl (fun s kt => addIf (kt.1.any fun k => listIn k.toList t) kt.2 s) s
  | [], _, hblock => absurd hblock (List.not_mem_nil _)
  | kt :: L, s, hblock => by
    rcases List.mem_cons.1 hblock with heq | htail
    · rw [List.foldl_cons]
      apply mem_taxFoldl_of_mem _ (fun s kt h => mem_addIf_of_mem h)
      have hany : trigs.any (fun k => listIn k.toList t) = true :=
        List.any_eq_true.2 ⟨k, hk, hocc⟩
      rw [← heq, addIf, hany]
      exact Finset.mem_insert_self tag _
    · exact tag_mem_taxFoldl hk hocc L _ htail

/-- If some taxonomy block `(trigs, tag)` has a trigger `k` occurring as a
substring of the lowercased text, then `tag` is in the extracted skill set. -/
theorem tag_mem_extract {text : String} {trigs : List String} {tag k : String}
    (hblock : (trigs, tag) ∈ taxonomy) (hk : k ∈ trigs)
    (hocc : listIn k.toList (text.toList.map Char.toLower) = true) :
    tag ∈ extract_canonical_skills text :=
  tag_mem_taxFoldl hk hocc taxonomy ∅ hblock

/-- Convenient form of `tag_mem_extract` whose taxonomy-lookup hypothesis is
a decidable boolean scan. -/
theorem tag_mem_extractB {text tag k : String}
    (hfind : (taxonomy.any fun kt => kt.2 == tag && kt.1.any fun k2 => k2 == k) = true)
    (hocc : listIn k.toList (text.toList.map Char.toLower) = true) :
    tag ∈ extract_canonical_skills text := by
  obtain ⟨kt, hmem, hkt⟩ := List.any_eq_true.1 hfind
  rw [Bool.and_eq_true] at hkt
  obtain ⟨k2, hk2, hbeq⟩ := List.any_eq_true.1 hkt.2
  rw [beq_iff_eq] at hbeq
  have htag : kt.2 = tag := beq_iff_eq.1 hkt.1
  have hblock : (kt.1, tag) ∈ taxonomy := by
    rw [← htag]
    cases kt
    exact hmem
  exact tag_mem_extract hblock (hbeq ▸ hk2) hocc

theorem extract_subset_aux (t : List Char) :
    ∀ (L : List (List String × String)) (s : Finset String),
      (∀ kt ∈ L, kt.2 ∈ canonicalTags) → s ⊆ canonicalTags →
      L.foldl (fun s kt => addIf (kt.1.any fun k => listIn k.toList t) kt.2 s) s
        ⊆ canonicalTags
  | [], _, _, hs => hs
  | kt :: L, _, hmem, hs =>
    extract_subset_aux t L _ (fun kt' h => hmem kt' (List.mem_cons_of_mem _ h))
      (addIf_subset (hmem kt (List.mem_cons_self _ _)) hs)

/-! ## Arithmetic facts about `round2` -/

theorem ratFloor_eq_intFloor (q : ℚ) : (q.floor : ℤ) = ⌊q⌋ :=
  (Rat.floor_def' q).trans Rat.floor_def.symm

theorem round2_eq_floor (q : ℚ) : round2 q = (⌊q * 100 + 1 / 2⌋ : ℚ) / 100 := by
  rw [round2, ratFloor_eq_intFloor]

theorem round2_nonneg {q : ℚ} (h : 0 ≤ q) : 0 ≤ round2 q := by
  rw [round2_eq_floor]
  apply div_nonneg _ (by norm_num : (0:ℚ) ≤ 100)
  have hf : (0 : ℤ) ≤ ⌊q * 100 + 1 / 2⌋ := Int.le_floor.2 (by push_cast; linarith)
  exact_mod_cast hf

theorem round2_le_hundred {q : ℚ} (h : q ≤ 100) : round2 q ≤ 100 := by
  rw [round2_eq_floor]
  rw [div_le_iff₀ (by norm_num : (0:ℚ) < 100)]
  have hf : ⌊q * 100 + 1 / 2⌋ ≤ (10000 : ℤ) :=
    Int.floor_le_iff.2 (by push_cast; linarith)
  calc ((⌊q * 100 + 1 / 2⌋ : ℤ) : ℚ) ≤ ((10000 : ℤ) : ℚ) := by exact_mod_cast hf
    _ = 100 * 100 := by norm_num

theorem round2_lt_hundred {q : ℚ} (h : q < 199 / 2) : round2 q < 100 := by
  rw [round2_eq_floor]
  rw [div_lt_iff₀ (by norm_num : (0:ℚ) < 100)]
  have hf : ⌊q * 100 + 1 / 2⌋ < (10000 : ℤ) :=
    Int.floor_lt.2 (by push_cast; linarith)
  calc ((⌊q * 100 + 1 / 2⌋ : ℤ) : ℚ) < ((10000 : ℤ) : ℚ) := by exact_mod_cast hf
    _ = 100 * 100 := by norm_num

theorem round2_neg_hundred_le {q : ℚ} (h : -100 ≤ q) : -100 ≤ round2 q := by
  rw [round2_eq_floor]
  rw [le_div_iff₀ (by norm_num : (0:ℚ) < 100)]
  have hf : (-10000 : ℤ) ≤ ⌊q * 100 + 1 / 2⌋ := Int.le_floor.2 (by push_cast; linarith)
  calc (-100 : ℚ) * 100 = ((-10000 : ℤ) : ℚ) := by norm_num
    _ ≤ ((⌊q * 100 + 1 / 2⌋ : ℤ) : ℚ) := by exact_mod_cast hf

theorem round2_intCast (n : ℤ) : round2 ((n : ℚ)) = (n : ℚ) := by
  rw [round2_eq_floor]
  have h1 : (n : ℚ) * 100 + 1 / 2 = ((100 * n : ℤ) : ℚ) + 1 / 2 := by push_cast; ring
  have h2 : ⌊((100 * n : ℤ) : ℚ) + 1 / 2⌋ = 100 * n + ⌊(1 / 2 : ℚ)⌋ :=
    Int.floor_int_add _ _
  have h3 : ⌊(1 / 2 : ℚ)⌋ = 0 := by
    rw [Int.floor_eq_zero_iff]
    constructor <;> norm_num
  rw [h1, h2, h3]
  push_cast
  ring

theorem round2_hundred : round2 100 = 100 := by
  have h := round2_intCast 100
  norm_num at h
  exact h

theorem round2_zero : round2 0 = 0 := by
  have h := round2_intCast 0
  norm_num at h
  exact h

/-! ## Claim theorems -/

/-- C10: for every input text, the skill set returned by
`extract_canonical_skills` is a subset of the fixed set of thirteen
canonical tags. -/
theorem extract_canonical_skills_subset_canonical (text : String) :
    extract_canonical_skills text ⊆ canonicalTags := by
  rw [extract_canonical_skills]
  exact extract_subset_aux _ taxonomy ∅ (by decide) (Finset.empty_subset _)

/-- C8: `clean_text` is idempotent, and for every input its output contains
no two consecutive whitespace characters and no leading or trailing
whitespace. -/
theorem clean_text_idempotent_and_normalized (s : String) :
    clean_text (clean_text s) = clean_text s ∧
    WSfree (clean_text s).toList ∧
    headNotWS (clean_text s).toList ∧
    headNotWS (clean_text s).toList.reverse := by
  refine ⟨?_, cleanTextL_wsfree _, cleanTextL_headNot _, cleanTextL_reverse_headNot _⟩
  exact congrArg (fun l => (⟨l⟩ : String)) (cleanTextL_idem s.toList)

/-- C2 counterexample: the text "python developer building react apps" does
not produce exactly {software development, web development}: the "ui"
trigger fires inside the word "building", so "ui ux design" is also
extracted. -/
theorem scenario_skills_counterexample :
    extract_canonical_skills "python developer building react apps" ≠
      {"software development", "web development"} ∧
    extract_canonical_skills "python developer building react apps" =
      {"software development", "web development", "ui ux design"} := by
  constructor
  · decide
  · decide

/-- C2 amended: any text containing "python developer building react apps"
yields a skill set containing {software development, web development,
ui ux design} (the last because "ui" is a substring of "building"), and the
phrase itself yields exactly these three tags. -/
theorem scenario_skills_amended (t : String)
    (h : listIn "python developer building react apps".toList t.toList = true) :
    ({"software development", "web development", "ui ux design"} : Finset String)
      ⊆ extract_canonical_skills t ∧
    extract_canonical_skills "python developer building react apps" =
      {"software development", "web development", "ui ux design"} := by
  have h2 := listIn_map Char.toLower h
  have h3 : ("python developer building react apps".toList.map Char.toLower)
      = "python developer building react apps".toList := by decide
  rw [h3] at h2
  refine ⟨?_, by decide⟩
  refine Finset.insert_subset_iff.2 ⟨?_, Finset.insert_subset_iff.2
    ⟨?_, Finset.singleton_subset_iff.2 ?_⟩⟩
  · exact tag_mem_extractB (k := "python") (by decide) (listIn_trans (by decide) h2)
  · exact tag_mem_extractB (k := "react") (by decide) (listIn_trans (by decide) h2)
  · exact tag_mem_extractB (k := "ui") (by decide) (listIn_trans (by decide) h2)

/-- Witness for C2 amended: the phrase itself contains the phrase. -/
theorem scenario_skills_amended_witness :
    listIn "python developer building react apps".toList
        "python developer building react apps".toList = true ∧
    ({"software development", "web development", "ui ux design"} : Finset String)
      ⊆ extract_canonical_skills "python developer building react apps" :=
  ⟨by decide, (scenario_skills_amended "python developer building react apps" (by decide)).1⟩

theorem qHundredNonneg : (0 : ℚ) ≤ 100 := by norm_num

theorem qNegOneLeOne : (-1 : ℚ) ≤ 1 := by norm_num

theorem qZeroLeOne : (0 : ℚ) ≤ 1 := by norm_num

/-- C1 counterexample: at cosine similarity -1/2 (inside the embedding
capability's stated range [-1, 1]) the code returns -50: no `max(0, ·)`
clamp is applied and the result lies outside [0, 100], while the spec's
formula would give 0. -/
theorem semantic_score_counterexample :
    semantic_match_score (-(1 / 2)) = -50 ∧
    semantic_match_score (-(1 / 2)) < 0 ∧
    round2 (max 0 (-(1 / 2)) * 100) = 0 := by
  have h1 : semantic_match_score (-(1 / 2)) = -50 := by
    rw [semantic_match_score]
    have h : (-(1 / 2) : ℚ) * 100 = ((-50 : ℤ) : ℚ) := by norm_num
    rw [h, round2_intCast]
    norm_num
  refine ⟨h1, by rw [h1]; norm_num, ?_⟩
  have h : (max 0 (-(1 / 2)) : ℚ) * 100 = ((0 : ℤ) : ℚ) := by
    rw [max_eq_left (by norm_num : (-(1 / 2) : ℚ) ≤ 0)]
    norm_num
  rw [h, round2_intCast]
  norm_num

/-- C1 amended: the semantic score is `round(cos * 100, 2)` with no
clamping; for cosine similarity in [-1, 1] it lies in [-100, 100], and it
is nonnegative (hence in [0, 100]) whenever the cosine similarity is
nonnegative.  (A negative cosine can still round up to 0, so nonnegativity
of the score is only implied by, not equivalent to, nonnegativity of the
cosine.) -/
theorem semantic_score_amended (cos : ℚ) (h1 : -1 ≤ cos) (h2 : cos ≤ 1) :
    semantic_match_score cos = round2 (cos * 100) ∧
    -100 ≤ semantic_match_score cos ∧
    semantic_match_score cos ≤ 100 ∧
    (0 ≤ cos → 0 ≤ semantic_match_score cos) := by
  refine ⟨rfl, ?_, ?_, ?_⟩
  · rw [semantic_match_score]
    exact round2_neg_hundred_le (by linarith)
  · rw [semantic_match_score]
    exact round2_le_hundred (by linarith)
  · intro h
    rw [semantic_match_score]
    exact round2_nonneg (mul_nonneg h (by norm_num))

/-- Witness for C1 amended at cosine 1. -/
theorem semantic_score_amended_witness :
    (-1 ≤ (1 : ℚ)) ∧ ((1 : ℚ) ≤ 1) ∧ 0 ≤ semantic_match_score 1 :=
  ⟨qNegOneLeOne, le_refl 1,
    (semantic_score_amended 1 qNegOneLeOne (le_refl 1)).2.2.2 qZeroLeOne⟩

/-- C5: the keyword score is the rounded overlap ratio when the
job-description tag set is non-empty and 0 (never a division by zero) when
it is empty; it always lies in [0, 100], and equals 100 exactly when the
job-description tag set is non-empty and contained in the résumé tags.  The
job-description set is drawn from the canonical taxonomy, as everywhere in
the program. -/
theorem keyword_match_score_spec (r j : Finset String) (hj : j ⊆ canonicalTags) :
    (j = ∅ → keyword_match_score r j = 0) ∧
    (j ≠ ∅ → keyword_match_score r j =
      round2 (((r ∩ j).card : ℚ) / (j.card : ℚ) * 100)) ∧
    0 ≤ keyword_match_score r j ∧
    keyword_match_score r j ≤ 100 ∧
    (keyword_match_score r j = 100 ↔ j.Nonempty ∧ j ⊆ r) := by
  by_cases hempty : j = ∅
  · subst hempty
    have hscore : keyword_match_score r ∅ = 0 := by simp [keyword_match_score]
    refine ⟨fun _ => hscore, fun h => absurd rfl h, by rw [hscore], ?_, ?_⟩
    · rw [hscore]; norm_num
    · rw [hscore]
      constructor
      · intro h; exact absurd h (by norm_num)
      · rintro ⟨hne, _⟩
        exact absurd rfl (Finset.nonempty_iff_ne_empty.1 hne)
  · have hif : keyword_match_score r j =
        round2 (((r ∩ j).card : ℚ) / (j.card : ℚ) * 100) := by
      rw [keyword_match_score, if_neg hempty]
    have hnpos : 0 < j.card :=
      Finset.card_pos.2 (Finset.nonempty_iff_ne_empty.2 hempty)
    have hn13 : j.card ≤ 13 := by
      have h := Finset.card_le_card hj
      have hc : canonicalTags.card = 13 := by decide
      rw [hc] at h
      exact h
    have hkn : (r ∩ j).card ≤ j.card :=
      Finset.card_le_card Finset.inter_subset_right
    have hnQ : (0 : ℚ) < (j.card : ℚ) := by exact_mod_cast hnpos
    have hratio0 : 0 ≤ ((r ∩ j).card : ℚ) / (j.card : ℚ) * 100 := by
      apply mul_nonneg _ (by norm_num)
      exact div_nonneg (by positivity) (le_of_lt hnQ)
    have hratio100 : ((r ∩ j).card : ℚ) / (j.card : ℚ) * 100 ≤ 100 := by
      have hle1 : ((r ∩ j).card : ℚ) / (j.card : ℚ) ≤ 1 :=
        (div_le_one hnQ).2 (by exact_mod_cast hkn)
      nlinarith
    refine ⟨fun h => absurd h hempty, fun _ => hif, ?_, ?_, ?_⟩
    · rw [hif]; exact round2_nonneg hratio0
    · rw [hif]; exact round2_le_hundred hratio100
    · constructor
      · intro h100
        refine ⟨Finset.nonempty_iff_ne_empty.2 hempty, ?_⟩
        by_contra hnsub
        have hssub : r ∩ j ⊂ j := by
          refine ⟨Finset.inter_subset_right, ?_⟩
          intro hback
          exact hnsub fun a ha => (Finset.mem_inter.1 (hback ha)).1
        have hklt : (r ∩ j).card < j.card := Finset.card_lt_card hssub
        have hkQ : ((r ∩ j).card : ℚ) ≤ (j.card : ℚ) - 1 := by
          have : (r ∩ j).card + 1 ≤ j.card := hklt
          have h2 : ((r ∩ j).card : ℚ) + 1 ≤ (j.card : ℚ) := by exact_mod_cast this
          linarith
        have hn13Q : (j.card : ℚ) ≤ 13 := by exact_mod_cast hn13
        have hlt : ((r ∩ j).card : ℚ) / (j.card : ℚ) * 100 < 199 / 2 := by
          rw [div_mul_eq_mul_div, div_lt_iff₀ hnQ]
          nlinarith
        have := round2_lt_hundred hlt
        rw [hif] at h100
        rw [h100] at this
        exact absurd this (by norm_num)
      · rintro ⟨_, hsub⟩
        rw [hif, Finset.inter_eq_right.2 hsub, div_self (ne_of_gt hnQ), one_mul]
        exact round2_hundred

/-- Witness for C5 at a concrete one-element pair of skill sets. -/
theorem keyword_match_score_spec_witness :
    ({"data science"} : Finset String) ⊆ canonicalTags ∧
    (keyword_match_score {"data science"} {"data science"} = 100 ↔
      ({"data science"} : Finset String).Nonempty ∧
      ({"data science"} : Finset String) ⊆ {"data science"}) :=
  ⟨by decide, (keyword_match_score_spec {"data science"} {"data science"} (by decide)).2.2.2.2⟩

/-- C6: the combined score is `round(semantic * 0.7 + keyword * 0.3, 2)` and
lies in [0, 100] whenever both sub-scores do. -/
theorem final_score_spec (s k : ℚ) (hs0 : 0 ≤ s) (hs1 : s ≤ 100)
    (hk0 : 0 ≤ k) (hk1 : k ≤ 100) :
    final_score s k = round2 (s * (7 / 10) + k * (3 / 10)) ∧
    0 ≤ final_score s k ∧ final_score s k ≤ 100 := by
  refine ⟨rfl, ?_, ?_⟩
  · rw [final_score]
    exact round2_nonneg (by linarith)
  · rw [final_score]
    exact round2_le_hundred (by linarith)

/-- Witness for C6 at semantic = 100, keyword = 0. -/
theorem final_score_spec_witness :
    (0 ≤ (100 : ℚ)) ∧ ((100 : ℚ) ≤ 100) ∧ (0 ≤ (0 : ℚ)) ∧ ((0 : ℚ) ≤ 100) ∧
    0 ≤ final_score 100 0 :=
  ⟨qHundredNonneg, le_refl 100, le_refl 0, qHundredNonneg,
    (final_score_spec 100 0 qHundredNonneg (le_refl 100) (le_refl 0) qHundredNonneg).2.1⟩

/-- C7 counterexample: when the résumé skill set is itself empty, the
substitution leaves the job-description set empty and the keyword score is
0, not 100. -/
theorem empty_skills_substitution_counterexample :
    substituted_jd ∅ ∅ = (∅ : Finset String) ∧
    keyword_match_score ∅ (substituted_jd ∅ ∅) = 0 ∧
    (0 : ℚ) ≠ 100 := by
  refine ⟨by simp [substituted_jd], by simp [substituted_jd, keyword_match_score], by norm_num⟩

/-- C7 amended: an empty job-description skill set is replaced by a copy of
the résumé skill set; provided the résumé skill set is non-empty, the
keyword score is then 100 and — since the embedding of the identical
skill string against itself has cosine similarity 1 — the semantic score
and the combined score are both 100.  (With an empty résumé set the keyword
score is 0 instead; see the counterexample.) -/
theorem empty_skills_substitution_amended (r : Finset String) (hr : r ≠ ∅) :
    substituted_jd r ∅ = r ∧
    keyword_match_score r (substituted_jd r ∅) = 100 ∧
    semantic_match_score 1 = 100 ∧
    final_score (semantic_match_score 1)
      (keyword_match_score r (substituted_jd r ∅)) = 100 := by
  have hsub : substituted_jd r ∅ = r := by simp [substituted_jd]
  have hkw : keyword_match_score r r = 100 := by
    rw [keyword_match_score, if_neg hr, Finset.inter_self]
    have hc : (r.card : ℚ) ≠ 0 := by
      have := mt Finset.card_eq_zero.1 hr
      exact_mod_cast this
    rw [div_self hc, one_mul]
    exact round2_hundred
  have hsem : semantic_match_score 1 = 100 := by
    rw [semantic_match_score, one_mul]
    exact round2_hundred
  have hfin : final_score 100 100 = 100 := by
    rw [final_score]
    have h : (100 : ℚ) * (7 / 10) + 100 * (3 / 10) = ((100 : ℤ) : ℚ) := by norm_num
    rw [h, round2_intCast]
    norm_num
  refine ⟨hsub, by rw [hsub]; exact hkw, hsem, ?_⟩
  rw [hsub, hkw, hsem]
  exact hfin

/-- Witness for C7 amended at a one-element résumé skill set. -/
theorem empty_skills_substitution_amended_witness :
    ({"software development"} : Finset String) ≠ ∅ ∧
    keyword_match_score {"software development"}
      (substituted_jd {"software development"} ∅) = 100 :=
  ⟨by decide, (empty_skills_substitution_amended {"software development"} (by decide)).2.1⟩

/-- C4 counterexample: manually supplied résumé text is used verbatim for
matching, not normalized first: "a  b" (two spaces) is passed through
unchanged even though its normalization is "a b". -/
theorem manual_text_counterexample :
    chooseResumeText "a  b" ⟨[], false, [], false, none⟩ = "a  b" ∧
    clean_text "a  b" = "a b" ∧
    ("a  b" : String) ≠ "a b" := by
  refine ⟨by decide, by decide, by decide⟩

/-- C4 amended: when non-blank manual résumé text is supplied, the
extraction chain is skipped entirely (the result does not depend on the
uploaded document at all) and the manual text is used as-is — without any
normalization. -/
theorem manual_text_amended (manual : String) (d d' : PdfDoc)
    (h : stripS manual ≠ "") :
    chooseResumeText manual d = manual ∧
    chooseResumeText manual d = chooseResumeText manual d' := by
  constructor
  · rw [chooseResumeText, if_pos h]
  · rw [chooseResumeText, if_pos h, chooseResumeText, if_pos h]

/-- Witness for C4 amended on concrete manual text and two different
documents. -/
theorem manual_text_amended_witness :
    stripS "abc" ≠ "" ∧
    chooseResumeText "abc" ⟨[], false, [], false, none⟩ = "abc" :=
  ⟨by decide,
    (manual_text_amended "abc" ⟨[], false, [], false, none⟩
      ⟨["x"], false, [], false, none⟩ (by decide)).1⟩

/-- C3 counterexample: with a single 50-character page from strategy 1 the
trimmed text has 50 < 100 non-whitespace characters, yet the pdfplumber
fallback (strategy 2) is not invoked — its guard is emptiness of the
trimmed text, not the 100-character threshold.  (OCR is invoked.) -/
theorem extraction_invocation_counterexample :
    (stripS (accumPages "" [String.mk (List.replicate 50 'a')])).length = 50 ∧
    50 < 100 ∧
    (extract_text_from_pdf
      ⟨[String.mk (List.replicate 50 'a')], false, [], false, none⟩).2.1 = false ∧
    (extract_text_from_pdf
      ⟨[String.mk (List.replicate 50 'a')], false, [], false, none⟩).2.2 = true := by
  refine ⟨by decide, by decide, by decide, by decide⟩

/-- C3 amended: strategy 2 is invoked exactly when strategy 1's accumulated
text is empty after trimming (not merely under 100 characters), and OCR is
invoked exactly when the text accumulated by strategies 1–2 has trimmed
length under 100 (this counts internal whitespace); in particular when
strategy 1 yields at least 100 trimmed characters, strategies 2 and 3 are
never invoked. -/
theorem extraction_invocation_amended (d : PdfDoc) :
    ((extract_text_from_pdf d).2.1 = true ↔
      stripS (accumPages "" d.pypdfPages) = "") ∧
    ((extract_text_from_pdf d).2.2 = true ↔
      (stripS (if stripS (accumPages "" d.pypdfPages) = ""
          then accumPages (accumPages "" d.pypdfPages) d.plumberPages
          else accumPages "" d.pypdfPages)).length < 100) ∧
    (100 ≤ (stripS (accumPages "" d.pypdfPages)).length →
      (extract_text_from_pdf d).2.1 = false ∧
      (extract_text_from_pdf d).2.2 = false) := by
  by_cases hcond : stripS (accumPages "" d.pypdfPages) = ""
  · refine ⟨?_, ?_, ?_⟩
    · simp [extract_text_from_pdf, hcond]
    · simp [extract_text_from_pdf, hcond]
    · intro h
      rw [hcond] at h
      exact absurd h (by decide)
  · refine ⟨?_, ?_, ?_⟩
    · simp [extract_text_from_pdf, hcond]
    · simp [extract_text_from_pdf, hcond]
    · intro h
      refine ⟨by simp [extract_text_from_pdf, hcond], ?_⟩
      simp [extract_text_from_pdf, hcond]
      exact h

set_option maxRecDepth 8000 in
/-- Witness for C3 amended: a document whose strategy-1 text layer yields
500 characters; neither fallback strategy is invoked. -/
theorem extraction_invocation_amended_witness :
    100 ≤ (stripS (accumPages "" [String.mk (List.replicate 500 'a')])).length ∧
    ((extract_text_from_pdf
      ⟨[String.mk (List.replicate 500 'a')], false, [], false, none⟩).2.1 = false ∧
     (extract_text_from_pdf
      ⟨[String.mk (List.replicate 500 'a')], false, [], false, none⟩).2.2 = false) :=
  ⟨by decide,
    (extraction_invocation_amended
      ⟨[String.mk (List.replicate 500 'a')], false, [], false, none⟩).2.2 (by decide)⟩

/-- C9 counterexample: an OCR failure is not treated as "zero text
produced" — it leaves the previously accumulated short text in place,
whereas an OCR run that really produces zero text replaces the accumulated
text with the empty string.  The two documents below differ only in whether
OCR raises. -/
theorem ocr_failure_counterexample :
    (extract_text_from_pdf
      ⟨[String.mk (List.replicate 50 'a')], false, [], false, none⟩).1
      = String.mk (List.replicate 50 'a') ∧
    (extract_text_from_pdf
      ⟨[String.mk (List.replicate 50 'a')], false, [], false, some []⟩).1
      = "" ∧
    String.mk (List.replicate 50 'a') ≠ "" := by
  refine ⟨by decide, by decide, by decide⟩

/-- C9 amended: the chain handles every failure combination without
propagating an error — the pypdf/pdfplumber exception flags never influence
the result (those failures surface only as truncated page-text lists), an
OCR exception is caught and leaves the text accumulated by strategies 1–2
in place, and when every strategy fails outright the chain returns the
empty string. -/
theorem extraction_never_raises (p1 p2 : List String) (b1 b1' b2 b2' : Bool)
    (o : Option (List String)) :
    extract_text_from_pdf ⟨p1, b1, p2, b2, o⟩ =
      extract_text_from_pdf ⟨p1, b1', p2, b2', o⟩ ∧
    (extract_text_from_pdf ⟨p1, b1, p2, b2, none⟩).1 =
      clean_text (if stripS (accumPages "" p1) = ""
        then accumPages (accumPages "" p1) p2
        else accumPages "" p1) ∧
    (extract_text_from_pdf ⟨[], true, [], true, none⟩).1 = "" := by
  refine ⟨rfl, ?_, by decide⟩
  by_cases hcond : stripS (accumPages "" p1) = ""
  · simp [extract_text_from_pdf, hcond]
  · simp [extract_text_from_pdf, hcond]

end JobMatching
